import Mathlib

/-!
Verification development for the DataEngine speech-dataset preparation toolkit.

This file gives a shallow embedding of the pure logic of the repository's
download / extract / match / enrich pipeline, translated from the Python
source:

* `DataEngine/Audio/DataCollection/utils.py`
  (`get_the_directory`, `stream_url`, `download_url`, `validate_file`,
  `extract_archive`)
* `DataEngine/Audio/DataCollection/downloaders.py` and
  `DataEngine/Audio/DataCollection/os_dataset_downloaders.py`
  (sequential batch download loops `download_mls`, `download_libri_tts`)
* `DataEngine/Audio/Utils/generic_utils.py`
  (`match_textfiles_list`, `get_timestamp_from_milliseconds`)
* `DataEngine/Audio/dataset_information.py`
  (`get_audio_length`, `get_audio_lengths`)

Modelling conventions:

* Strings stand for Python `str`; all byte/character reasoning treats one
  character as one byte (contents in the claims are ASCII).
* The local file system is an insertion-ordered association list from path to
  file content (`FS`), mirroring the fact that Python writes create or
  overwrite one path at a time.
* Python exceptions become a small error type `PyErr`; a function that can
  raise returns `Except PyErr`.
* Network and archive I/O are represented by the data they deliver: a remote
  resource carries its Content-Length and body, an archive carries the entry
  list that `tarfile`/`zipfile` iteration would yield.
-/

/-- Error kinds raised by the modelled code.  `runtimeAlreadyExists` and
`runtimeIntegrity` are both Python `RuntimeError`s, distinguished by their
messages ("... already exists. Delete the file manually and retry." versus
"The hash of ... does not match. Delete the file manually and retry.");
`notImplementedError` is the `NotImplementedError` for unsupported archives,
`valueError` the `ValueError` from `get_the_directory` / `validate_file`,
`indexError` the `IndexError` from `files[0]` on an empty archive. -/
inductive PyErr where
  | valueError
  | indexError
  | notImplementedError
  | runtimeAlreadyExists
  | runtimeIntegrity
  deriving Repr, DecidableEq

/-! ## String helpers (Python `os.path` and `str` operations) -/

/-- Python `s.startswith(pre)`. -/
def str_starts_with (s pre : String) : Bool :=
  pre.data.isPrefixOf s.data

/-- Python `s.endswith(suf)`. -/
def str_ends_with (s suf : String) : Bool :=
  suf.data.isSuffixOf s.data

/-- Python `s[n:]` for a nonnegative `n` (drop the first `n` characters). -/
def str_drop (s : String) (n : Nat) : String :=
  String.mk (s.data.drop n)

/-- Python `s.strip("/")`: remove leading and trailing `/` characters. -/
def strip_slashes (s : String) : String :=
  String.mk (((s.data.dropWhile (· = '/')).reverse.dropWhile (· = '/')).reverse)

/-- Python `s.split(os.sep, 1)[0]` (`os.sep = "/"`): the prefix of `s` up to
the first `/`, or all of `s` if it has none. -/
def split_head (s : String) : String :=
  String.mk (s.data.takeWhile (· ≠ '/'))

/-- Python `os.path.join(a, b)` for POSIX paths: `b` if it is absolute,
otherwise `a` and `b` glued with exactly one separator. -/
def path_join (a b : String) : String :=
  if str_starts_with b "/" then b
  else if a = "" then b
  else if str_ends_with a "/" then a ++ b
  else a ++ "/" ++ b

/-- Python `os.path.basename(p)`: the part of `p` after its last `/`. -/
def basename (p : String) : String :=
  String.mk ((p.data.reverse.takeWhile (· ≠ '/')).reverse)

/-- Python `s.replace("\n", "")`: remove every newline character
(the replacement pattern is a single character, so this is a filter). -/
def strip_newlines (s : String) : String :=
  String.mk (s.data.filter (fun c => c ≠ '\n'))

/-- Python `str.zfill(width)`: left-pad with `'0'` to `width` characters in
total; a leading sign stays in front of the inserted padding (so
`"-1".zfill(3)` is `"-01"`). -/
def zfill (width : Nat) (s : String) : String :=
  match s.data with
  | [] => String.mk (List.replicate width '0')
  | c :: rest =>
      if c = '-' ∨ c = '+' then
        String.mk (c :: (List.replicate (width - (rest.length + 1)) '0' ++ rest))
      else String.mk (List.replicate (width - (rest.length + 1)) '0' ++ (c :: rest))

/-! ## Ordered dictionaries

Python `dict` preserves insertion order; assigning to an existing key
replaces the value in place, assigning to a fresh key appends.  `files_map`
in `match_textfiles_list` and the downloaded-file table of the file-system
model are both such dictionaries. -/

/-- `m[k] = v` on an insertion-ordered dictionary: replace in place if `k`
is present, append otherwise. -/
def dictUpsert {α : Type} : List (String × α) → String → α → List (String × α)
  | [], k, v => [(k, v)]
  | (k', v') :: rest, k, v =>
      if k' = k then (k, v) :: rest else (k', v') :: dictUpsert rest k v

/-- `m.get(k)` on an insertion-ordered dictionary. -/
def dictLookup {α : Type} : List (String × α) → String → Option α
  | [], _ => none
  | (k', v) :: rest, k => if k' = k then some v else dictLookup rest k

/-! ## Sample matching (`generic_utils.match_textfiles_list`, duplicated
verbatim in `DataCreation/utils.py`) -/

/-- One value of `files_map`: the Python dict `{'audio_file': ..., 'text': ...}`
where `text` is `None` until a matching transcript is read. -/
structure Sample where
  audio_file : String
  text : Option String
  deriving Repr, DecidableEq

/-- Python `os.path.basename(f).split(".")[0]`: the base filename up to the
first dot, the join key between audio and transcript files. -/
def base_name (p : String) : String :=
  String.mk ((basename p).data.takeWhile (· ≠ '.'))

/-- `files_map[base_name]['text'] = transcript` — update the `text` field of
the entry at key `k`, leaving the map unchanged when `k` is absent. -/
def dictSetText : List (String × Sample) → String → String → List (String × Sample)
  | [], _, _ => []
  | (k', v) :: rest, k, t =>
      if k' = k then (k', { v with text := some t }) :: rest
      else (k', v) :: dictSetText rest k t

/-- The first loop of `match_textfiles_list`: for each audio file, insert
`{'audio_file': audio_file, 'text': None}` at its base name (a repeated base
name overwrites the earlier entry in place). -/
def buildFilesMap : List (String × Sample) → List String → List (String × Sample)
  | m, [] => m
  | m, a :: rest => buildFilesMap (dictUpsert m (base_name a) ⟨a, none⟩) rest

/-- The second loop of `match_textfiles_list`: for each transcript file whose
base name is a key of the map, read it (`readFile`), strip newlines and store
the result as `text`.  (The source guards with `if base_name in files_map`;
when the key is absent nothing is read or written.) -/
def applyTextFiles (readFile : String → String) :
    List (String × Sample) → List String → List (String × Sample)
  | m, [] => m
  | m, t :: rest =>
      let b := base_name t
      if (dictLookup m b).isSome then
        applyTextFiles readFile (dictSetText m b (strip_newlines (readFile t))) rest
      else
        applyTextFiles readFile m rest

/-- `match_textfiles_list(audio_files, text_files)`: build the base-name map
from the audio files, attach transcript text, and return the values whose
`text` is not `None`, in map-insertion order.  `readFile` supplies the
contents of a transcript path. -/
def match_textfiles_list (readFile : String → String)
    (audio_files text_files : List String) : List Sample :=
  ((applyTextFiles readFile (buildFilesMap [] audio_files) text_files).map
      Prod.snd).filter (fun f => f.text.isSome)

/-! ## Timestamp formatting (`generic_utils.get_timestamp_from_milliseconds`)

The source computes each component with Python float division and `int()`
truncation (`int(milliseconds / (60 * 60 * 1000))` and so on).  CPython's
int-by-int true division returns the IEEE-754 double nearest to the exact
quotient (53 significant bits, ties to even), and `int()` truncates toward
zero; a quotient that rounds *up* can make the running remainder negative.
`pyIntDivNat` below computes that correctly rounded double exactly with
integer arithmetic: it is faithful wherever the quotient lies in the
double's normal finite range (the divisors here are 3600000, 60000 and
1000, so that covers every input until Python's float overflow at
astronomically large values; the fuelled logarithm is exact for arguments
below `2 ^ 2048`). -/

/-- Floor of the base-2 logarithm by fuelled halving: exact for `n < 2 ^ f`
(the fuel only bounds the recursion depth). -/
def log2Fuel : Nat → Nat → Nat
  | 0, _ => 0
  | f + 1, n => if 2 ≤ n then log2Fuel f (n / 2) + 1 else 0

/-- Python `int(a / b)` for nonnegative `a` and positive `b`: the exact
quotient `a / b` rounded to the nearest IEEE-754 double, truncated toward
zero.  The binade of the quotient is located (so that the scaled quotient
`N / D` lies in `[2 ^ 52, 2 ^ 53)`), the mantissa is rounded to the nearest
integer with ties to even, and the value `m · 2 ^ (-s)` is truncated. -/
def pyIntDivNat (a b : Nat) : Nat :=
  if a = 0 then 0 else
  let c := log2Fuel 2048 b + 1
  let k := log2Fuel 2048 (a * 2 ^ c / b)
  let s : Int := 52 + (c : Int) - (k : Int)
  let N := a * 2 ^ s.toNat
  let D := b * 2 ^ (-s).toNat
  let q := N / D
  let r := N % D
  let m := if D < 2 * r then q + 1 else if 2 * r < D then q else q + q % 2
  if 0 ≤ s then m / 2 ^ s.toNat else m * 2 ^ (-s).toNat

/-- Python `int(a / b)` for a possibly negative `a`: float division is
sign-symmetric and `int()` truncates toward zero. -/
def pyIntDiv (a : Int) (b : Nat) : Int :=
  if 0 ≤ a then (pyIntDivNat a.toNat b : Int) else -(pyIntDivNat (-a).toNat b : Int)

/-- `get_timestamp_from_milliseconds(milliseconds)`: each quotient is a
Python float division truncated by `int()` (`pyIntDiv`); the running
remainders are plain integer subtractions and can go negative when a
quotient rounds up. -/
def get_timestamp_from_milliseconds (milliseconds : Nat) : String :=
  let hours : Int := pyIntDiv (milliseconds : Int) (60 * 60 * 1000)
  let ms1 : Int := (milliseconds : Int) - hours * (60 * 60 * 1000)
  let minutes : Int := pyIntDiv ms1 (60 * 1000)
  let ms2 : Int := ms1 - minutes * (60 * 1000)
  let seconds : Int := pyIntDiv ms2 1000
  let ms3 : Int := ms2 - seconds * 1000
  zfill 2 (toString hours) ++ ":" ++ zfill 2 (toString minutes) ++ ":" ++
    zfill 2 (toString seconds) ++ "." ++ zfill 3 (toString ms3)

/-! ## File system model

Existing local files as an insertion-ordered map from path to content. -/

/-- The local file system: path to file content. -/
abbrev FS := List (String × String)

/-! ## Archive extraction (`DataCollection/utils.py`) -/

/-- The base path hardcoded inside `get_the_directory` (the function's
`base_path` parameter is immediately overwritten by this constant). -/
def dataengine_base : String := "/home/logan/.local/share/dataengine"

/-- `get_the_directory(base_path, full_path)`.  The `base_path` argument is
ignored by the source: the local variable is reassigned to the hardcoded
`"/home/logan/.local/share/dataengine"` before use.  If `full_path` starts
with that constant, the constant joined with the first component of the
remainder is returned; otherwise a `ValueError` is raised. -/
def get_the_directory (base_path full_path : String) : Except PyErr String :=
  let base := dataengine_base
  if str_starts_with full_path base then
    let remaining_path := strip_slashes (str_drop full_path base.data.length)
    let first_subdirectory := split_head remaining_path
    .ok (path_join base first_subdirectory)
  else
    .error .valueError

/-- One member of a tar archive, as `tarfile` iteration yields it:
its name, whether `isfile()` holds, and the data `tar.extract` would write. -/
structure TarEntry where
  name : String
  isfile : Bool
  content : String
  deriving Repr, DecidableEq

/-- One member of a zip archive (`zipfile.ZipFile.namelist()` entry). -/
structure ZipEntry where
  name : String
  content : String
  deriving Repr, DecidableEq

/-- A local archive file.  `tarView` is `some entries` when
`tarfile.open(path, "r")` succeeds (otherwise it raises
`tarfile.ReadError`); `zipView` likewise for `zipfile.ZipFile` and
`zipfile.BadZipFile`. -/
structure Archive where
  tarView : Option (List TarEntry)
  zipView : Option (List ZipEntry)
  deriving Repr, DecidableEq

/-- The tar loop of `extract_archive`: for each member, if it is a file its
joined path is appended to `files`; an already-existing file is skipped
unless `overwrite` is set, otherwise `tar.extract` writes it.  Non-file
members (directories) create no file.  Returns the file system and the
accumulated `files` list. -/
def extractTar (to_path : String) (overwrite : Bool) :
    List TarEntry → FS → List String → FS × List String
  | [], fs, files => (fs, files)
  | e :: rest, fs, files =>
      let file_path := path_join to_path e.name
      if e.isfile then
        let files' := files ++ [file_path]
        if (dictLookup fs file_path).isSome ∧ ¬ overwrite then
          extractTar to_path overwrite rest fs files'
        else
          extractTar to_path overwrite rest (dictUpsert fs file_path e.content) files'
      else
        extractTar to_path overwrite rest fs files

/-- The zip loop of `extract_archive`: every name in `namelist()` gets an
existence check (skip unless `overwrite`), otherwise `zfile.extract` writes
it. -/
def extractZip (to_path : String) (overwrite : Bool) : List ZipEntry → FS → FS
  | [], fs => fs
  | e :: rest, fs =>
      let file_path := path_join to_path e.name
      if (dictLookup fs file_path).isSome ∧ ¬ overwrite then
        extractZip to_path overwrite rest fs
      else
        extractZip to_path overwrite rest (dictUpsert fs file_path e.content)

/-- The return expression shared by both branches of `extract_archive`:
`get_the_directory(to_path, files[0])`, with `files[0]` raising `IndexError`
on an empty list.  In the tar branch `files` holds joined paths; in the zip
branch it is the raw `namelist()`. -/
def archiveReturn (to_path : String) (files : List String) : Except PyErr String :=
  match files with
  | [] => .error .indexError
  | f0 :: _ => get_the_directory to_path f0

/-- `extract_archive(from_path, to_path, overwrite)`: probe as tar; only when
that raises `tarfile.ReadError` (`tarView = none`), probe as zip; when that
raises `zipfile.BadZipFile` too (`zipView = none`), raise
`NotImplementedError`.  Returns the updated file system and the returned
root directory (or the propagated error). -/
def extract_archive (ar : Archive) (to_path : String) (overwrite : Bool)
    (fs : FS) : FS × Except PyErr String :=
  match ar.tarView with
  | some entries =>
      let res := extractTar to_path overwrite entries fs []
      (res.1, archiveReturn to_path res.2)
  | none =>
      match ar.zipView with
      | some zentries =>
          let fs' := extractZip to_path overwrite zentries fs
          (fs', archiveReturn to_path (zentries.map (fun z => z.name)))
      | none => (fs, .error .notImplementedError)

/-! ## Download (`DataCollection/utils.py`: `stream_url`, `validate_file`,
`download_url`) -/

/-- A remote resource: the `Content-Length` reported by the HEAD request
(`-1` when the header is missing, as in `int(info.get("Content-Length", -1))`),
the body a GET delivers, and the filename the response headers suggest
(`req_info.get_filename()`). -/
structure Remote where
  contentLength : Int
  content : String
  remoteFilename : Option String

/-- The two hash functions `validate_file` can select
(`hashlib.sha256` / `hashlib.md5`), kept abstract. -/
structure HashModel where
  sha256 : String → String
  md5 : String → String

/-- `validate_file(file_obj, hash_value, hash_type)`: stream the content
through the selected hash and compare hex digests; an unknown `hash_type`
raises `ValueError`. -/
def validate_file (hm : HashModel) (content hash_value hash_type : String) :
    Except PyErr Bool :=
  if hash_type = "sha256" then .ok (hm.sha256 content = hash_value)
  else if hash_type = "md5" then .ok (hm.md5 content = hash_value)
  else .error .valueError

/-- Run `validate_file` and raise the mismatch `RuntimeError` on `False`
(the pattern `if not validate_file(...): raise RuntimeError(...)` used at
both validation sites of `download_url`). -/
def hash_check (hm : HashModel) (content hash_value hash_type : String) :
    Except PyErr Unit :=
  match validate_file hm content hash_value hash_type with
  | .error e => .error e
  | .ok true => .ok ()
  | .ok false => .error .runtimeIntegrity

/-- `stream_url(url, start_byte)`: the concatenation of the yielded chunks.
If the HEAD `Content-Length` equals `start_byte` the generator returns at
once with no chunks; with a truthy `start_byte` (not `None`, not `0`) a
`Range: bytes=start_byte-` request streams the tail of the body; otherwise
the whole body streams. -/
def stream_url (remote : Remote) (start_byte : Option Nat) : String :=
  match start_byte with
  | some n =>
      if (n : Int) = remote.contentLength then ""
      else if n ≠ 0 then String.mk (remote.content.data.drop n)
      else remote.content
  | none => remote.content

/-- Outcome of `download_url`: the file system afterwards, the returned value
or raised error, and the bytes that `stream_url` yielded (empty when nothing
was downloaded). -/
structure DLResult where
  fs : FS
  ret : Except PyErr Unit
  streamed : String
  deriving Repr

/-- `download_url(url, download_folder, filename, hash_value, hash_type,
progress_bar, resume)` on a file system `fs`.

* the target filename falls back from the argument to the response headers to
  `os.path.basename(url)`;
* with `resume` and an existing file, mode is `"ab"` and `local_size` its
  size; without `resume` an existing file raises `RuntimeError`; otherwise
  mode is `"wb"` (`local_size = None`);
* when a (truthy) `hash_value` is supplied and `local_size` equals the remote
  `Content-Length`, the existing file is validated: a match returns with no
  download, a mismatch raises the integrity `RuntimeError` (in the `"wb"`
  branch `local_size` is `None`, so this comparison is always false);
* otherwise the streamed chunks are appended (`"ab"`) or written fresh
  (`"wb"`), and a supplied `hash_value` is re-validated afterwards, raising
  the integrity `RuntimeError` on mismatch while leaving the file in place.

A `hash_value` of `None` or `""` is falsy in `if hash_value and ...`, hence
`hash_value.getD "" ≠ ""` below. -/
def download_url (hm : HashModel) (remote : Remote) (url download_folder : String)
    (filename : Option String) (hash_value : Option String) (hash_type : String)
    (resume : Bool) (fs : FS) : DLResult :=
  let fname := filename.getD (remote.remoteFilename.getD (basename url))
  let filepath := path_join download_folder fname
  let hv := hash_value.getD ""
  match dictLookup fs filepath, resume with
  | some existing, true =>
      if hv ≠ "" ∧ (existing.data.length : Int) = remote.contentLength then
        match hash_check hm existing hv hash_type with
        | .ok () => ⟨fs, .ok (), ""⟩
        | .error e => ⟨fs, .error e, ""⟩
      else
        let streamed := stream_url remote (some existing.data.length)
        let fs' := dictUpsert fs filepath (existing ++ streamed)
        if hv = "" then ⟨fs', .ok (), streamed⟩
        else
          match hash_check hm (existing ++ streamed) hv hash_type with
          | .ok () => ⟨fs', .ok (), streamed⟩
          | .error e => ⟨fs', .error e, streamed⟩
  | some _, false => ⟨fs, .error .runtimeAlreadyExists, ""⟩
  | none, _ =>
      let streamed := stream_url remote none
      let fs' := dictUpsert fs filepath streamed
      if hv = "" then ⟨fs', .ok (), streamed⟩
      else
        match hash_check hm streamed hv hash_type with
        | .ok () => ⟨fs', .ok (), streamed⟩
        | .error e => ⟨fs', .error e, streamed⟩

/-! ## Sequential batch acquisition

Two loop shapes occur in the source for `language/subset = "all"` with
`async_download = False`:

* `downloaders.download_mls` and `formatters.LibriTts._download_libri_tts`
  end the loop body with `return download_and_extract(...)`, so the loop body
  runs once: only the first map entry is processed and its result is
  returned (an empty map falls through and returns `None`);
* `os_dataset_downloaders.download_libri_tts` (also `download_mailabs` and
  `download_mls` there) call `download_and_extract(path, val)` for every
  entry, discard each result, and fall off the end returning `None`
  (`download_and_extract` in that module itself returns `None`).

`step` abstracts one `download_and_extract` unit of work on a state `σ`
producing a result `α`; the dictionary is the insertion-ordered
name-to-URL list. -/

/-- Sequential branch of `downloaders.download_mls` (same shape as
`LibriTts._download_libri_tts`): the `return` inside the `for` body means the
tail of the dictionary is never visited. -/
def download_mls_sequential {σ α : Type} (step : String × String → σ → σ × α) :
    List (String × String) → σ → σ × Option α
  | [], s => (s, none)
  | entry :: _, s =>
      let r := step entry s
      (r.1, some r.2)

/-- Sequential branch of `os_dataset_downloaders.download_libri_tts`: every
entry is processed in map-insertion order, each result is discarded, and the
function returns `None`. -/
def download_libri_tts_sequential {σ α : Type} (step : String × String → σ → σ × α) :
    List (String × String) → σ → σ × Option α
  | [], s => (s, none)
  | entry :: rest, s => download_libri_tts_sequential step rest (step entry s).1

/-! ## Duration / sample-rate enrichment (`dataset_information.py`) -/

/-- What a successful `pydub.AudioSegment.from_file` header decode yields:
`len(audio_file)` in milliseconds and `frame_rate`. -/
structure AudioInfo where
  length_ms : Nat
  frame_rate : Int
  deriving Repr, DecidableEq

/-- `get_audio_length(audio_path)`: duration in seconds and frame rate; the
bare `except:` turns any decode failure (`decode p = none`) into the
sentinel `(-1, -1)`. -/
def get_audio_length (decode : String → Option AudioInfo) (audio_path : String) :
    ℚ × Int :=
  match decode audio_path with
  | some info => ((info.length_ms : ℚ) / 1000, info.frame_rate)
  | none => (-1, -1)

/-- One metadata row, with the fields `get_audio_lengths` writes. -/
structure Row where
  audio_file : String
  audio_len : ℚ
  sample_rate : Int
  deriving Repr, DecidableEq

/-- The loop of `get_audio_lengths`: for every row of the table, set
`audio_len` and `sample_rate` from `get_audio_length(row["audio_file"])`. -/
def get_audio_lengths (decode : String → Option AudioInfo) : List Row → List Row
  | [] => []
  | r :: rest =>
      let lr := get_audio_length decode r.audio_file
      { r with audio_len := lr.1, sample_rate := lr.2 } :: get_audio_lengths decode rest

/-! # Helper lemmas -/

theorem dictLookup_upsert {α : Type} (m : List (String × α)) (k k' : String) (v : α) :
    dictLookup (dictUpsert m k v) k' = if k = k' then some v else dictLookup m k' := by
  induction m with
  | nil => simp [dictUpsert, dictLookup]
  | cons p rest ih =>
      obtain ⟨k0, v0⟩ := p
      by_cases h : k0 = k
      · subst h
        by_cases h' : k0 = k'
        · subst h'; simp [dictUpsert, dictLookup]
        · simp [dictUpsert, dictLookup, h']
      · by_cases h' : k0 = k'
        · subst h'
          have : ¬ k = k0 := fun hk => h hk.symm
          simp [dictUpsert, dictLookup, h, this]
        · simp [dictUpsert, dictLookup, h, h', ih]

theorem mem_dictUpsert {α : Type} (m : List (String × α)) (k : String) (v : α)
    (p : String × α) (hp : p ∈ dictUpsert m k v) : p = (k, v) ∨ p ∈ m := by
  induction m with
  | nil => simpa [dictUpsert] using hp
  | cons q rest ih =>
      obtain ⟨k0, v0⟩ := q
      by_cases h : k0 = k
      · subst h
        simp [dictUpsert] at hp
        rcases hp with h1 | h1
        · exact Or.inl h1
        · exact Or.inr (List.mem_cons_of_mem _ h1)
      · simp only [dictUpsert, if_neg h, List.mem_cons] at hp
        rcases hp with h1 | h1
        · exact Or.inr (by simp [h1])
        · rcases ih h1 with h2 | h2
          · exact Or.inl h2
          · exact Or.inr (List.mem_cons_of_mem _ h2)

theorem dictUpsert_lookup_self {α : Type} (m : List (String × α)) (k : String) (v : α)
    (h : dictLookup m k = some v) : dictUpsert m k v = m := by
  induction m with
  | nil => simp [dictLookup] at h
  | cons q rest ih =>
      obtain ⟨k0, v0⟩ := q
      by_cases hk : k0 = k
      · subst hk
        simp [dictLookup] at h
        simp [dictUpsert, h]
      · simp only [dictLookup, if_neg hk] at h
        simp [dictUpsert, hk, ih h]

theorem mem_keys_dictUpsert {α : Type} (m : List (String × α)) (k a : String) (v : α) :
    a ∈ (dictUpsert m k v).map Prod.fst ↔ a = k ∨ a ∈ m.map Prod.fst := by
  induction m with
  | nil => simp [dictUpsert, eq_comm]
  | cons q rest ih =>
      obtain ⟨k0, v0⟩ := q
      by_cases h : k0 = k
      · subst h
        simp [dictUpsert, eq_comm]
      · simp only [dictUpsert, if_neg h, List.map_cons, List.mem_cons, ih]
        tauto

theorem nodup_keys_dictUpsert {α : Type} (m : List (String × α)) (k : String) (v : α)
    (h : (m.map Prod.fst).Nodup) : ((dictUpsert m k v).map Prod.fst).Nodup := by
  induction m with
  | nil => simp [dictUpsert]
  | cons q rest ih =>
      obtain ⟨k0, v0⟩ := q
      simp only [List.map_cons, List.nodup_cons] at h
      by_cases hk : k0 = k
      · subst hk
        simpa [dictUpsert] using h
      · simp only [dictUpsert, if_neg hk, List.map_cons, List.nodup_cons]
        refine ⟨fun hmem => ?_, ih h.2⟩
        rcases (mem_keys_dictUpsert rest k k0 v).1 hmem with h1 | h1
        · exact hk h1
        · exact h.1 h1

theorem dictLookup_setText (m : List (String × Sample)) (k k' t : String) :
    dictLookup (dictSetText m k t) k' =
      if k = k' then (dictLookup m k').map (fun v => { v with text := some t })
      else dictLookup m k' := by
  induction m with
  | nil => simp [dictSetText, dictLookup]
  | cons q rest ih =>
      obtain ⟨k0, v0⟩ := q
      by_cases h : k0 = k
      · subst h
        by_cases h' : k0 = k'
        · subst h'; simp [dictSetText, dictLookup]
        · simp [dictSetText, dictLookup, h']
      · by_cases h' : k0 = k'
        · subst h'
          have : ¬ k = k0 := fun hk => h hk.symm
          simp [dictSetText, dictLookup, h, this]
        · simp [dictSetText, dictLookup, h, h', ih]

theorem mem_dictSetText (m : List (String × Sample)) (k t : String)
    (p : String × Sample) (hp : p ∈ dictSetText m k t) :
    ∃ q ∈ m, q.1 = p.1 ∧ q.2.audio_file = p.2.audio_file := by
  induction m with
  | nil => simp [dictSetText] at hp
  | cons q rest ih =>
      obtain ⟨k0, v0⟩ := q
      by_cases h : k0 = k
      · subst h
        simp [dictSetText] at hp
        rcases hp with h1 | h1
        · exact ⟨(k0, v0), List.mem_cons_self _ _, by simp [h1]⟩
        · exact ⟨p, List.mem_cons_of_mem _ h1, rfl, rfl⟩
      · simp only [dictSetText, if_neg h, List.mem_cons] at hp
        rcases hp with h1 | h1
        · exact ⟨(k0, v0), List.mem_cons_self _ _, by simp [h1]⟩
        · obtain ⟨q, hq, hq1, hq2⟩ := ih h1
          exact ⟨q, List.mem_cons_of_mem _ hq, hq1, hq2⟩

theorem keys_dictSetText (m : List (String × Sample)) (k t : String) :
    (dictSetText m k t).map Prod.fst = m.map Prod.fst := by
  induction m with
  | nil => simp [dictSetText]
  | cons q rest ih =>
      obtain ⟨k0, v0⟩ := q
      by_cases h : k0 = k
      · subst h; simp [dictSetText]
      · simp [dictSetText, h, ih]

theorem getLast?_cons_getD {α : Type} (a : α) (l : List α) :
    (a :: l).getLast? = some (l.getLast?.getD a) := by
  induction l generalizing a with
  | nil => simp
  | cons b t ih => rw [List.getLast?_cons_cons, ih b]; simp

theorem dictLookup_buildFilesMap (l : List String) (m : List (String × Sample))
    (k : String) :
    dictLookup (buildFilesMap m l) k =
      ((l.filter (fun a => base_name a == k)).getLast?).elim (dictLookup m k)
        (fun a => some ⟨a, none⟩) := by
  induction l generalizing m with
  | nil => simp [buildFilesMap]
  | cons a rest ih =>
      rw [show buildFilesMap m (a :: rest) =
            buildFilesMap (dictUpsert m (base_name a) ⟨a, none⟩) rest from rfl, ih]
      by_cases h : base_name a = k
      · cases hf : (rest.filter (fun x => base_name x == k)).getLast? with
        | some a' => simp [List.filter_cons, h, hf, getLast?_cons_getD]
        | none => simp [List.filter_cons, h, hf, getLast?_cons_getD, dictLookup_upsert]
      · cases hf : (rest.filter (fun x => base_name x == k)).getLast? with
        | some a' => simp [List.filter_cons, h, hf]
        | none => simp [List.filter_cons, h, hf, dictLookup_upsert]

theorem dictLookup_applyTextFiles (rf : String → String) (l : List String)
    (m : List (String × Sample)) (k : String) :
    dictLookup (applyTextFiles rf m l) k =
      ((l.filter (fun t => base_name t == k)).getLast?).elim (dictLookup m k)
        (fun t => (dictLookup m k).map
          (fun v => { v with text := some (strip_newlines (rf t)) })) := by
  induction l generalizing m with
  | nil => simp [applyTextFiles]
  | cons t rest ih =>
      by_cases hp : (dictLookup m (base_name t)).isSome
      · rw [show applyTextFiles rf m (t :: rest) =
              applyTextFiles rf (dictSetText m (base_name t) (strip_newlines (rf t))) rest
            from by simp [applyTextFiles, hp], ih]
        by_cases h : base_name t = k
        · subst h
          cases hf : (rest.filter (fun x => base_name x == base_name t)).getLast? with
          | some t' =>
              cases ho : dictLookup m (base_name t) with
              | some v =>
                  simp [List.filter_cons, hf, getLast?_cons_getD,
                    dictLookup_setText, ho]
              | none => simp [ho] at hp
          | none =>
              simp [List.filter_cons, hf, getLast?_cons_getD, dictLookup_setText]
        · have hne : base_name t ≠ k := h
          cases hf : (rest.filter (fun x => base_name x == k)).getLast? with
          | some t' => simp [List.filter_cons, h, hf, dictLookup_setText, hne]
          | none => simp [List.filter_cons, h, hf, dictLookup_setText, hne]
      · rw [show applyTextFiles rf m (t :: rest) = applyTextFiles rf m rest
            from by simp [applyTextFiles, hp], ih]
        have ho : dictLookup m (base_name t) = none :=
          Option.not_isSome_iff_eq_none.mp hp
        by_cases h : base_name t = k
        · subst h
          cases hf : (rest.filter (fun x => base_name x == base_name t)).getLast? with
          | some t' => simp [List.filter_cons, hf, getLast?_cons_getD, ho]
          | none => simp [List.filter_cons, hf, getLast?_cons_getD, ho]
        · cases hf : (rest.filter (fun x => base_name x == k)).getLast? with
          | some t' => simp [List.filter_cons, h, hf]
          | none => simp [List.filter_cons, h, hf]

theorem values_filter_key (m : List (String × Sample)) (s : String)
    (hkey : ∀ p ∈ m, p.1 = base_name p.2.audio_file)
    (hnd : (m.map Prod.fst).Nodup) :
    (m.map Prod.snd).filter (fun f => base_name f.audio_file == s) =
      (dictLookup m s).elim [] (fun v => [v]) := by
  induction m with
  | nil => simp [dictLookup]
  | cons q rest ih =>
      obtain ⟨k0, v0⟩ := q
      have hk0 : k0 = base_name v0.audio_file := hkey (k0, v0) (List.mem_cons_self _ _)
      simp only [List.map_cons, List.nodup_cons] at hnd
      by_cases h : k0 = s
      · subst h
        have htail : (rest.map Prod.snd).filter
            (fun f => base_name f.audio_file == k0) = [] := by
          rw [List.filter_eq_nil_iff]
          intro f hf
          obtain ⟨p, hp, hpf⟩ := List.mem_map.mp hf
          have : p.1 = base_name p.2.audio_file :=
            hkey p (List.mem_cons_of_mem _ hp)
          have hne : p.1 ≠ k0 := fun hc => hnd.1 (hc ▸ List.mem_map_of_mem Prod.fst hp)
          simp [hpf ▸ this.symm, hne]
        simp [List.filter_cons, hk0.symm, dictLookup, htail]
      · have hne : base_name v0.audio_file ≠ s := hk0 ▸ h
        simp only [List.map_cons, List.filter_cons]
        rw [if_neg (by simp [hne])]
        rw [ih (fun p hp => hkey p (List.mem_cons_of_mem _ hp)) hnd.2]
        simp [dictLookup, h]

theorem buildFilesMap_key (l : List String) (m : List (String × Sample))
    (hm : ∀ p ∈ m, p.1 = base_name p.2.audio_file) :
    ∀ p ∈ buildFilesMap m l, p.1 = base_name p.2.audio_file := by
  induction l generalizing m with
  | nil => simpa [buildFilesMap] using hm
  | cons a rest ih =>
      intro p hp
      refine ih _ ?_ p hp
      intro q hq
      rcases mem_dictUpsert _ _ _ _ hq with h | h
      · simp [h]
      · exact hm q h

theorem buildFilesMap_audio_mem (A : List String) (l : List String)
    (m : List (String × Sample))
    (hm : ∀ p ∈ m, p.2.audio_file ∈ A) (hl : ∀ a ∈ l, a ∈ A) :
    ∀ p ∈ buildFilesMap m l, p.2.audio_file ∈ A := by
  induction l generalizing m with
  | nil => simpa [buildFilesMap] using hm
  | cons a rest ih =>
      intro p hp
      refine ih _ ?_ (fun x hx => hl x (List.mem_cons_of_mem _ hx)) p hp
      intro q hq
      rcases mem_dictUpsert _ _ _ _ hq with h | h
      · simp only [h]
        exact hl a (List.mem_cons_self _ _)
      · exact hm q h

theorem buildFilesMap_nodup (l : List String) (m : List (String × Sample))
    (h : (m.map Prod.fst).Nodup) : ((buildFilesMap m l).map Prod.fst).Nodup := by
  induction l generalizing m with
  | nil => simpa [buildFilesMap] using h
  | cons a rest ih => exact ih _ (nodup_keys_dictUpsert _ _ _ h)

theorem keys_applyTextFiles (rf : String → String) (l : List String)
    (m : List (String × Sample)) :
    (applyTextFiles rf m l).map Prod.fst = m.map Prod.fst := by
  induction l generalizing m with
  | nil => simp [applyTextFiles]
  | cons t rest ih =>
      by_cases hp : (dictLookup m (base_name t)).isSome
      · rw [show applyTextFiles rf m (t :: rest) =
              applyTextFiles rf (dictSetText m (base_name t) (strip_newlines (rf t))) rest
            from by simp [applyTextFiles, hp], ih, keys_dictSetText]
      · rw [show applyTextFiles rf m (t :: rest) = applyTextFiles rf m rest
            from by simp [applyTextFiles, hp], ih]

theorem applyTextFiles_key (rf : String → String) (l : List String)
    (m : List (String × Sample))
    (hm : ∀ p ∈ m, p.1 = base_name p.2.audio_file) :
    ∀ p ∈ applyTextFiles rf m l, p.1 = base_name p.2.audio_file := by
  induction l generalizing m with
  | nil => simpa [applyTextFiles] using hm
  | cons t rest ih =>
      by_cases hp : (dictLookup m (base_name t)).isSome
      · rw [show applyTextFiles rf m (t :: rest) =
              applyTextFiles rf (dictSetText m (base_name t) (strip_newlines (rf t))) rest
            from by simp [applyTextFiles, hp]]
        refine ih _ ?_
        intro q hq
        obtain ⟨q', hq', h1, h2⟩ := mem_dictSetText _ _ _ q hq
        rw [← h1, ← h2]
        exact hm q' hq'
      · rw [show applyTextFiles rf m (t :: rest) = applyTextFiles rf m rest
            from by simp [applyTextFiles, hp]]
        exact ih _ hm

theorem applyTextFiles_audio_mem (A : List String) (rf : String → String)
    (l : List String) (m : List (String × Sample))
    (hm : ∀ p ∈ m, p.2.audio_file ∈ A) :
    ∀ p ∈ applyTextFiles rf m l, p.2.audio_file ∈ A := by
  induction l generalizing m with
  | nil => simpa [applyTextFiles] using hm
  | cons t rest ih =>
      by_cases hp : (dictLookup m (base_name t)).isSome
      · rw [show applyTextFiles rf m (t :: rest) =
              applyTextFiles rf (dictSetText m (base_name t) (strip_newlines (rf t))) rest
            from by simp [applyTextFiles, hp]]
        refine ih _ ?_
        intro q hq
        obtain ⟨q', hq', _, h2⟩ := mem_dictSetText _ _ _ q hq
        rw [← h2]
        exact hm q' hq'
      · rw [show applyTextFiles rf m (t :: rest) = applyTextFiles rf m rest
            from by simp [applyTextFiles, hp]]
        exact ih _ hm

/-! # Claim C4 — matched output has non-null transcripts from the input audio list

The claim says every output entry has a transcript that is "neither null nor
empty".  The source only filters out `None` (`if f['text'] is not None`): a
transcript file whose content is empty (or all newlines) produces an entry
with the empty string as transcript.  The non-null part and the
audio-path-from-inputs part hold. -/

/-- Claim C4, counterexample: with audio `a.wav` and a transcript `a.txt`
whose content is empty, `match_textfiles_list` returns an entry whose
transcript is the empty string — refuting "neither null nor empty". -/
theorem match_textfiles_keeps_empty_transcript :
    match_textfiles_list (fun _ => "") ["a.wav"] ["a.txt"] =
      [⟨"a.wav", some ""⟩] := by decide

/-- Claim C4 (amended): every entry of the output of `match_textfiles_list`
has a transcript that is not null (it may be the empty string), and an audio
path that is one of the input audio paths. -/
theorem match_textfiles_nonnull_and_from_inputs (rf : String → String)
    (afs tfs : List String) (f : Sample)
    (hf : f ∈ match_textfiles_list rf afs tfs) :
    f.text.isSome ∧ f.audio_file ∈ afs := by
  unfold match_textfiles_list at hf
  rw [List.mem_filter] at hf
  obtain ⟨hmem, hsome⟩ := hf
  obtain ⟨p, hp, hpf⟩ := List.mem_map.mp hmem
  refine ⟨hsome, ?_⟩
  rw [← hpf]
  exact applyTextFiles_audio_mem afs rf tfs _
    (buildFilesMap_audio_mem afs afs [] (by simp) (fun a ha => ha)) p hp

/-- Claim C4, witness: the amended theorem applied to a concrete matching
run with a non-empty transcript. -/
theorem match_textfiles_nonnull_witness :
    (Sample.mk "a.wav" (some "hello")).text.isSome ∧
      (Sample.mk "a.wav" (some "hello")).audio_file ∈ ["a.wav"] :=
  match_textfiles_nonnull_and_from_inputs (fun _ => "hello") ["a.wav"] ["a.txt"]
    (Sample.mk "a.wav" (some "hello")) (by decide)

/-! # Claim C5 — duplicate audio stems: exactly one entry, last one wins -/

/-- Claim C5: if two audio input paths share a base-filename stem `s` and a
transcript with that stem exists, the output of `match_textfiles_list`
contains exactly one entry for that stem, and its audio path is the later
one in the input list (the last input whose stem is `s`). -/
theorem match_textfiles_last_wins (rf : String → String) (afs tfs : List String)
    (s a1 a2 t : String)
    (ha1 : a1 ∈ afs) (ha1s : base_name a1 = s) (hne : a1 ≠ a2)
    (hlast : (afs.filter (fun x => base_name x == s)).getLast? = some a2)
    (ht : t ∈ tfs) (hts : base_name t = s) :
    ∃ e txt,
      (match_textfiles_list rf afs tfs).filter
          (fun f => base_name f.audio_file == s) = [e] ∧
        e.audio_file = a2 ∧ e.text = some txt := by
  have hkey : ∀ p ∈ applyTextFiles rf (buildFilesMap [] afs) tfs,
      p.1 = base_name p.2.audio_file :=
    applyTextFiles_key rf tfs _ (buildFilesMap_key afs [] (by simp))
  have hnd : ((applyTextFiles rf (buildFilesMap [] afs) tfs).map Prod.fst).Nodup := by
    rw [keys_applyTextFiles]
    exact buildFilesMap_nodup afs [] (by simp)
  obtain ⟨t', ht'⟩ : ∃ t',
      (tfs.filter (fun x => base_name x == s)).getLast? = some t' := by
    cases hh : (tfs.filter (fun x => base_name x == s)).getLast? with
    | some t' => exact ⟨t', rfl⟩
    | none =>
        rw [List.getLast?_eq_none_iff, List.filter_eq_nil_iff] at hh
        exact absurd (show (base_name t == s) = true by simp [hts]) (hh t ht)
  have hlook : dictLookup (applyTextFiles rf (buildFilesMap [] afs) tfs) s =
      some ⟨a2, some (strip_newlines (rf t'))⟩ := by
    rw [dictLookup_applyTextFiles, ht', Option.elim_some,
      dictLookup_buildFilesMap, hlast]
    simp
  have hcomm : ∀ (l : List Sample) (p q : Sample → Bool),
      List.filter p (List.filter q l) = List.filter q (List.filter p l) := by
    intro l p q
    rw [List.filter_filter, List.filter_filter]
    exact List.filter_congr (fun a _ => Bool.and_comm _ _)
  refine ⟨⟨a2, some (strip_newlines (rf t'))⟩, strip_newlines (rf t'), ?_, rfl, rfl⟩
  unfold match_textfiles_list
  rw [hcomm, values_filter_key _ s hkey hnd, hlook]
  simp

/-- Claim C5, witness: two audio paths `x/a.wav` and `y/a.mp3` share the stem
`a`; the single output entry for that stem carries the later one. -/
theorem match_textfiles_last_wins_witness :
    ∃ e txt,
      (match_textfiles_list (fun _ => "T") ["x/a.wav", "y/a.mp3"]
            ["a.txt"]).filter (fun f => base_name f.audio_file == "a") = [e] ∧
        e.audio_file = "y/a.mp3" ∧ e.text = some txt :=
  match_textfiles_last_wins (fun _ => "T") ["x/a.wav", "y/a.mp3"] ["a.txt"]
    "a" "x/a.wav" "y/a.mp3" "a.txt" (by decide) (by decide) (by decide)
    (by decide) (by decide) (by decide)


/-! # Extraction lemmas -/

theorem extractTar_cons_skip (t : String) (ow : Bool) (e : TarEntry)
    (rest : List TarEntry) (fs : FS) (acc : List String)
    (hf : e.isfile = true)
    (hC : (dictLookup fs (path_join t e.name)).isSome ∧ ¬ ow) :
    extractTar t ow (e :: rest) fs acc =
      extractTar t ow rest fs (acc ++ [path_join t e.name]) := by
  simp only [extractTar]
  rw [if_pos hf, if_pos hC]

theorem extractTar_cons_write (t : String) (ow : Bool) (e : TarEntry)
    (rest : List TarEntry) (fs : FS) (acc : List String)
    (hf : e.isfile = true)
    (hC : ¬ ((dictLookup fs (path_join t e.name)).isSome ∧ ¬ ow)) :
    extractTar t ow (e :: rest) fs acc =
      extractTar t ow rest (dictUpsert fs (path_join t e.name) e.content)
        (acc ++ [path_join t e.name]) := by
  simp only [extractTar]
  rw [if_pos hf, if_neg hC]

theorem extractTar_cons_dir (t : String) (ow : Bool) (e : TarEntry)
    (rest : List TarEntry) (fs : FS) (acc : List String)
    (hf : ¬ (e.isfile = true)) :
    extractTar t ow (e :: rest) fs acc = extractTar t ow rest fs acc := by
  simp only [extractTar]
  rw [if_neg hf]

theorem extractZip_cons_skip (t : String) (ow : Bool) (e : ZipEntry)
    (rest : List ZipEntry) (fs : FS)
    (hC : (dictLookup fs (path_join t e.name)).isSome ∧ ¬ ow) :
    extractZip t ow (e :: rest) fs = extractZip t ow rest fs := by
  simp only [extractZip]
  rw [if_pos hC]

theorem extractZip_cons_write (t : String) (ow : Bool) (e : ZipEntry)
    (rest : List ZipEntry) (fs : FS)
    (hC : ¬ ((dictLookup fs (path_join t e.name)).isSome ∧ ¬ ow)) :
    extractZip t ow (e :: rest) fs =
      extractZip t ow rest (dictUpsert fs (path_join t e.name) e.content) := by
  simp only [extractZip]
  rw [if_neg hC]

theorem extractTar_files (to_path : String) (ow : Bool) (entries : List TarEntry)
    (fs : FS) (acc : List String) :
    (extractTar to_path ow entries fs acc).2 =
      acc ++ (entries.filter (fun e => e.isfile)).map
        (fun e => path_join to_path e.name) := by
  induction entries generalizing fs acc with
  | nil => simp [extractTar]
  | cons e rest ih =>
      by_cases hf : e.isfile
      · by_cases hs : (dictLookup fs (path_join to_path e.name)).isSome ∧ ¬ ow
        · rw [extractTar_cons_skip to_path ow e rest fs acc hf hs, ih]
          simp [List.filter_cons, hf]
        · rw [extractTar_cons_write to_path ow e rest fs acc hf hs, ih]
          simp [List.filter_cons, hf]
      · rw [extractTar_cons_dir to_path ow e rest fs acc hf, ih]
        simp [List.filter_cons, hf]

theorem extractTar_lookup_mono (to_path : String) (ow : Bool)
    (entries : List TarEntry) (fs : FS) (acc : List String) (k : String)
    (h : (dictLookup fs k).isSome) :
    (dictLookup (extractTar to_path ow entries fs acc).1 k).isSome := by
  induction entries generalizing fs acc with
  | nil => simpa [extractTar] using h
  | cons e rest ih =>
      by_cases hf : e.isfile
      · by_cases hs : (dictLookup fs (path_join to_path e.name)).isSome ∧ ¬ ow
        · rw [extractTar_cons_skip to_path ow e rest fs acc hf hs]
          exact ih _ _ h
        · rw [extractTar_cons_write to_path ow e rest fs acc hf hs]
          refine ih _ _ ?_
          rw [dictLookup_upsert]
          by_cases hk : path_join to_path e.name = k
          · simp [hk]
          · simpa [hk] using h
      · rw [extractTar_cons_dir to_path ow e rest fs acc hf]
        exact ih _ _ h

theorem extractTar_covers (to_path : String) (ow : Bool)
    (entries : List TarEntry) (fs : FS) (acc : List String) (e : TarEntry)
    (he : e ∈ entries) (hf : e.isfile) :
    (dictLookup (extractTar to_path ow entries fs acc).1
      (path_join to_path e.name)).isSome := by
  induction entries generalizing fs acc with
  | nil => simp at he
  | cons e0 rest ih =>
      rcases List.mem_cons.mp he with h0 | h0
      · subst h0
        by_cases hs : (dictLookup fs (path_join to_path e.name)).isSome ∧ ¬ ow
        · rw [extractTar_cons_skip to_path ow e rest fs acc hf hs]
          exact extractTar_lookup_mono _ _ _ _ _ _ hs.1
        · rw [extractTar_cons_write to_path ow e rest fs acc hf hs]
          refine extractTar_lookup_mono _ _ _ _ _ _ ?_
          rw [dictLookup_upsert]
          simp
      · by_cases hf0 : e0.isfile
        · by_cases hs : (dictLookup fs (path_join to_path e0.name)).isSome ∧ ¬ ow
          · rw [extractTar_cons_skip to_path ow e0 rest fs acc hf0 hs]
            exact ih _ _ h0
          · rw [extractTar_cons_write to_path ow e0 rest fs acc hf0 hs]
            exact ih _ _ h0
        · rw [extractTar_cons_dir to_path ow e0 rest fs acc hf0]
          exact ih _ _ h0

theorem extractTar_noop (to_path : String) (entries : List TarEntry) (fs : FS)
    (acc : List String)
    (h : ∀ e ∈ entries, e.isfile →
      (dictLookup fs (path_join to_path e.name)).isSome) :
    (extractTar to_path false entries fs acc).1 = fs := by
  induction entries generalizing acc with
  | nil => simp [extractTar]
  | cons e rest ih =>
      by_cases hf : e.isfile
      · rw [extractTar_cons_skip to_path false e rest fs acc hf
          ⟨h e (List.mem_cons_self _ _) hf, by simp⟩]
        exact ih _ (fun e' he' hf' => h e' (List.mem_cons_of_mem _ he') hf')
      · rw [extractTar_cons_dir to_path false e rest fs acc hf]
        exact ih _ (fun e' he' hf' => h e' (List.mem_cons_of_mem _ he') hf')

theorem extractZip_lookup_mono (to_path : String) (ow : Bool)
    (entries : List ZipEntry) (fs : FS) (k : String)
    (h : (dictLookup fs k).isSome) :
    (dictLookup (extractZip to_path ow entries fs) k).isSome := by
  induction entries generalizing fs with
  | nil => simpa [extractZip] using h
  | cons e rest ih =>
      by_cases hs : (dictLookup fs (path_join to_path e.name)).isSome ∧ ¬ ow
      · rw [extractZip_cons_skip to_path ow e rest fs hs]
        exact ih _ h
      · rw [extractZip_cons_write to_path ow e rest fs hs]
        refine ih _ ?_
        rw [dictLookup_upsert]
        by_cases hk : path_join to_path e.name = k
        · simp [hk]
        · simpa [hk] using h

theorem extractZip_covers (to_path : String) (ow : Bool)
    (entries : List ZipEntry) (fs : FS) (e : ZipEntry) (he : e ∈ entries) :
    (dictLookup (extractZip to_path ow entries fs)
      (path_join to_path e.name)).isSome := by
  induction entries generalizing fs with
  | nil => simp at he
  | cons e0 rest ih =>
      rcases List.mem_cons.mp he with h0 | h0
      · subst h0
        by_cases hs : (dictLookup fs (path_join to_path e.name)).isSome ∧ ¬ ow
        · rw [extractZip_cons_skip to_path ow e rest fs hs]
          exact extractZip_lookup_mono _ _ _ _ _ hs.1
        · rw [extractZip_cons_write to_path ow e rest fs hs]
          refine extractZip_lookup_mono _ _ _ _ _ ?_
          rw [dictLookup_upsert]
          simp
      · by_cases hs : (dictLookup fs (path_join to_path e0.name)).isSome ∧ ¬ ow
        · rw [extractZip_cons_skip to_path ow e0 rest fs hs]
          exact ih _ h0
        · rw [extractZip_cons_write to_path ow e0 rest fs hs]
          exact ih _ h0

theorem extractZip_noop (to_path : String) (entries : List ZipEntry) (fs : FS)
    (h : ∀ e ∈ entries, (dictLookup fs (path_join to_path e.name)).isSome) :
    extractZip to_path false entries fs = fs := by
  induction entries with
  | nil => simp [extractZip]
  | cons e rest ih =>
      rw [extractZip_cons_skip to_path false e rest fs
        ⟨h e (List.mem_cons_self _ _), by simp⟩]
      exact ih (fun e' he' => h e' (List.mem_cons_of_mem _ he'))

/-! # Claim C2 — inferred dataset root directory

The claim (and spec §4.2) says `extract_archive` returns the first path
component of the first extracted file's path *relative to `to_path`*, joined
back onto `to_path`.  The source's `get_the_directory` ignores its
`base_path` parameter and reassigns it to the hardcoded
`"/home/logan/.local/share/dataengine"`; the root is computed against that
constant, and any destination outside it makes the call raise `ValueError`
(the zip branch even passes the raw member name, never joined onto
`to_path`).  The hardcoded developer home path contradicts the function's
own parameter and the spec's description of the intent, so the claim is
right and the code is wrong. -/

/-- Claim C2, evaluation at the failing input: extracting a tar archive whose
first file is `d/f.txt` into `/data` extracts the file but returns
`ValueError` instead of the claimed `/data/d`; the same archive into the
hardcoded base directory returns that base joined with `d`, showing the
root is computed against the constant, not the caller's `to_path`. -/
theorem extract_archive_root_dir_failing :
    (extract_archive ⟨some [⟨"d/f.txt", true, "x"⟩], none⟩ "/data" false []).2 =
        Except.error PyErr.valueError ∧
      (extract_archive ⟨some [⟨"d/f.txt", true, "x"⟩], none⟩ "/data" false []).2 ≠
        Except.ok "/data/d" ∧
      (extract_archive ⟨some [⟨"d/f.txt", true, "x"⟩], none⟩ dataengine_base
          false []).2 =
        Except.ok (dataengine_base ++ "/d") :=
  ⟨rfl, fun h => Except.noConfusion h, rfl⟩

/-! # Claim C6 — extraction idempotence with `overwrite=False` -/

/-- Claim C6, counterexample: the claim says the second run never raises, but
whenever the first run raises (here the `ValueError` from the hardcoded base
path in `get_the_directory`, with destination `/data`), the second run
raises identically. -/
theorem extract_archive_second_run_raises :
    (extract_archive ⟨some [⟨"d/f.txt", true, "x"⟩], none⟩ "/data" false
        ((extract_archive ⟨some [⟨"d/f.txt", true, "x"⟩], none⟩ "/data" false
          []).1)).2 = Except.error PyErr.valueError := rfl

/-- Claim C6 (amended): running `extract_archive` with `overwrite=False` a
second time over the same archive into the same directory is a complete
no-op: the file system is unchanged from the first run and the returned
value (or raised error) is identical — in particular the second run raises
exactly when the first one does, and the extracted file set equals that of a
single run. -/
theorem extract_archive_idempotent (ar : Archive) (to_path : String) (fs : FS) :
    extract_archive ar to_path false
        ((extract_archive ar to_path false fs).1) =
      extract_archive ar to_path false fs := by
  cases htv : ar.tarView with
  | some entries =>
      have hcov : ∀ e ∈ entries, e.isfile = true →
          (dictLookup (extractTar to_path false entries fs []).1
            (path_join to_path e.name)).isSome :=
        fun e he hf => extractTar_covers to_path false entries fs [] e he hf
      simp only [extract_archive, htv]
      rw [extractTar_noop to_path entries _ [] hcov,
        extractTar_files to_path false entries
          (extractTar to_path false entries fs []).1 [],
        extractTar_files to_path false entries fs []]
  | none =>
      cases hzv : ar.zipView with
      | none => simp [extract_archive, htv, hzv]
      | some zentries =>
          have hcov : ∀ e ∈ zentries,
              (dictLookup (extractZip to_path false zentries fs)
                (path_join to_path e.name)).isSome :=
            fun e he => extractZip_covers to_path false zentries fs e he
          simp only [extract_archive, htv, hzv]
          rw [extractZip_noop to_path zentries _ hcov]

/-! # Claim C7 — archive probe order and the unsupported-format error -/

/-- Claim C7: `extract_archive` settles on the tar interpretation whenever
`tarfile` can open the file — the zip view is never consulted then (first
conjunct); a file that is not a tar but is a zip is handled by the zip loop
(second conjunct); and when neither probe succeeds the call fails with
exactly `NotImplementedError`, the `UnsupportedArchiveError` equivalent
(third conjunct). -/
theorem extract_archive_probe_order :
    (∀ (entries : List TarEntry) (zv : Option (List ZipEntry)) (t : String)
        (ow : Bool) (fs : FS),
        extract_archive ⟨some entries, zv⟩ t ow fs =
          extract_archive ⟨some entries, none⟩ t ow fs) ∧
    (∀ (zentries : List ZipEntry) (t : String) (ow : Bool) (fs : FS),
        extract_archive ⟨none, some zentries⟩ t ow fs =
          (extractZip t ow zentries fs,
            archiveReturn t (zentries.map (fun z => z.name)))) ∧
    (∀ (t : String) (ow : Bool) (fs : FS),
        extract_archive ⟨none, none⟩ t ow fs =
          (fs, Except.error PyErr.notImplementedError)) :=
  ⟨fun _ _ _ _ _ => rfl, fun _ _ _ _ => rfl, fun _ _ _ => rfl⟩

/-! # Claim C1 — sequential batch acquisition

The claim says sequential mode downloads *every* entry and surfaces the
*last* entry's result.  Neither loop shape in the source does that:
`downloaders.download_mls` / `LibriTts._download_libri_tts` return from
inside the loop body, so only the *first* entry is processed and surfaced;
`os_dataset_downloaders.download_libri_tts` does process every entry in
map-insertion order but discards each result and returns `None`. -/

/-- Claim C1, counterexample: with a two-entry map and a step that records
the processed names, `download_mls`'s sequential loop processes only the
first entry and surfaces its result — not all entries with the last result
as the claim states. -/
theorem download_mls_sequential_first_only :
    download_mls_sequential (fun e s => (s ++ [e.1], e.1))
        [("de", "url1"), ("en", "url2")] ([] : List String) =
        (["de"], some "de") ∧
      download_mls_sequential (fun e s => (s ++ [e.1], e.1))
        [("de", "url1"), ("en", "url2")] ([] : List String) ≠
        (["de", "en"], some "en") := by
  constructor
  · rfl
  · decide

/-- Claim C1 (amended): in `downloaders.download_mls` (and
`LibriTts._download_libri_tts`) sequential mode, the in-loop `return` makes
exactly the first map entry be downloaded and extracted and its result be
the surfaced value; in `os_dataset_downloaders.download_libri_tts`
sequential mode, every entry is processed in map-insertion order (a left
fold of the per-entry action over the state) and the surfaced value is
`None`, not the last entry's result. -/
theorem sequential_batch_amended :
    (∀ (σ α : Type) (step : String × String → σ → σ × α) (e : String × String)
        (rest : List (String × String)) (s : σ),
        download_mls_sequential step (e :: rest) s =
          ((step e s).1, some (step e s).2)) ∧
    (∀ (σ α : Type) (step : String × String → σ → σ × α)
        (d : List (String × String)) (s : σ),
        download_libri_tts_sequential step d s =
          (d.foldl (fun acc entry => (step entry acc).1) s, none)) := by
  refine ⟨fun σ α step e rest s => rfl, fun σ α step d => ?_⟩
  induction d with
  | nil => intro s; rfl
  | cons e rest ih =>
      intro s
      rw [show download_libri_tts_sequential step (e :: rest) s =
            download_libri_tts_sequential step rest (step e s).1 from rfl, ih]
      rfl

/-! # Claim C8 — duration/sample-rate enrichment is total -/

theorem get_audio_lengths_map (decode : String → Option AudioInfo)
    (rows : List Row) :
    get_audio_lengths decode rows =
      rows.map (fun r =>
        { r with audio_len := (get_audio_length decode r.audio_file).1,
                 sample_rate := (get_audio_length decode r.audio_file).2 }) := by
  induction rows with
  | nil => rfl
  | cons r rest ih => simp [get_audio_lengths, ih]

/-- Claim C8: `get_audio_length` is total — any decode failure yields the
sentinel pair `(-1, -1)` instead of an exception (first conjunct, the bare
`except:` of the source) — and `get_audio_lengths` processes every row of
the batch: the i-th output row is exactly the i-th input row enriched with
that row's duration and sample rate, so no row aborts the batch (second
conjunct). -/
theorem audio_length_total_sentinel :
    (∀ (decode : String → Option AudioInfo) (p : String),
        decode p = none → get_audio_length decode p = (-1, -1)) ∧
    (∀ (decode : String → Option AudioInfo) (rows : List Row) (i : Nat),
        (get_audio_lengths decode rows)[i]? =
          (rows[i]?).map (fun r =>
            { r with audio_len := (get_audio_length decode r.audio_file).1,
                     sample_rate := (get_audio_length decode r.audio_file).2 })) := by
  constructor
  · intro decode p h
    simp [get_audio_length, h]
  · intro decode rows i
    rw [get_audio_lengths_map, List.getElem?_map]

/-- Claim C8, witness: a decoder that fails on every path yields the
sentinel on a concrete file. -/
theorem audio_length_sentinel_witness :
    get_audio_length (fun _ => none) "corrupt.wav" = (-1, -1) :=
  audio_length_total_sentinel.1 (fun _ => none) "corrupt.wav" rfl

/-! # Claim C3 — checksum handling in `download_url` -/

/-- Claim C3: (a) with `resume=True`, an existing local file whose size
equals the remote `Content-Length` and whose recomputed hash matches the
supplied value makes `download_url` return at once — no bytes streamed, file
system untouched; (b) when the hash recomputed after a completed download
does not match, the call fails with the integrity `RuntimeError` and the
downloaded file stays on disk (the file system holds the downloaded content
at the target path). -/
theorem download_url_checksum_behavior :
    (∀ (hm : HashModel) (remote : Remote) (url folder fname hv : String)
        (fs : FS) (c : String),
        dictLookup fs (path_join folder fname) = some c →
        (c.data.length : Int) = remote.contentLength →
        hv ≠ "" →
        hm.sha256 c = hv →
        download_url hm remote url folder (some fname) (some hv) "sha256"
            true fs = ⟨fs, .ok (), ""⟩) ∧
    (∀ (hm : HashModel) (remote : Remote) (url folder fname hv : String)
        (fs : FS) (resume : Bool),
        dictLookup fs (path_join folder fname) = none →
        hv ≠ "" →
        hm.sha256 remote.content ≠ hv →
        download_url hm remote url folder (some fname) (some hv) "sha256"
            resume fs =
          ⟨dictUpsert fs (path_join folder fname) remote.content,
            .error .runtimeIntegrity, remote.content⟩ ∧
        dictLookup (download_url hm remote url folder (some fname) (some hv)
            "sha256" resume fs).fs (path_join folder fname) =
          some remote.content) := by
  constructor
  · intro hm remote url folder fname hv fs c hc hlen hhv hhash
    simp only [download_url, Option.getD_some]
    rw [hc]
    simp only [if_pos (And.intro hhv hlen)]
    simp [hash_check, validate_file, hhash]
  · intro hm remote url folder fname hv fs resume hc hhv hhash
    have hmain : download_url hm remote url folder (some fname) (some hv)
        "sha256" resume fs =
        ⟨dictUpsert fs (path_join folder fname) remote.content,
          .error .runtimeIntegrity, remote.content⟩ := by
      simp only [download_url, Option.getD_some]
      rw [hc]
      simp only [stream_url]
      rw [if_neg hhv]
      simp [hash_check, validate_file, hhash]
    refine ⟨hmain, ?_⟩
    rw [hmain]
    rw [dictLookup_upsert]
    simp

/-- Claim C3, witness: with the identity function standing in for sha256, a
pre-existing complete file with a matching checksum is returned as-is with
nothing streamed, and a fresh download whose checksum mismatches fails with
the integrity error while the file remains in the file system. -/
theorem download_url_checksum_witness :
    download_url ⟨fun s => s, fun s => s⟩ ⟨5, "hello", none⟩ "http://x/f" "/d"
        (some "f") (some "hello") "sha256" true [("/d/f", "hello")] =
      ⟨[("/d/f", "hello")], .ok (), ""⟩ ∧
    download_url ⟨fun s => s, fun s => s⟩ ⟨5, "hello", none⟩ "http://x/f" "/d"
        (some "f") (some "bad") "sha256" false [] =
      ⟨dictUpsert [] (path_join "/d" "f") "hello",
        .error .runtimeIntegrity, "hello"⟩ :=
  ⟨download_url_checksum_behavior.1 ⟨fun s => s, fun s => s⟩ ⟨5, "hello", none⟩
      "http://x/f" "/d" "f" "hello" [("/d/f", "hello")] "hello"
      (by decide) (by decide) (by decide) rfl,
    (download_url_checksum_behavior.2 ⟨fun s => s, fun s => s⟩
      ⟨5, "hello", none⟩ "http://x/f" "/d" "f" "bad" [] false
      (by decide) (by decide) (by decide)).1⟩

/-! # Claim C10 — resume on an already-complete file is a no-op -/

/-- Claim C10: `download_url` with `resume=True`, no checksum, and an
existing local file whose size equals the remote `Content-Length` streams no
chunks (`stream_url` yields nothing), leaves the local file's contents
unchanged (the file system is exactly the input one), and returns
normally. -/
theorem download_url_resume_complete_noop (hm : HashModel) (remote : Remote)
    (url folder fname : String) (fs : FS) (c : String)
    (hc : dictLookup fs (path_join folder fname) = some c)
    (hlen : (c.data.length : Int) = remote.contentLength) :
    download_url hm remote url folder (some fname) none "sha256" true fs =
      ⟨fs, .ok (), ""⟩ := by
  have hs : stream_url remote (some c.length) = "" := by
    simp only [stream_url]
    rw [if_pos (show ((c.length : Nat) : Int) = remote.contentLength from hlen)]
  have hup : dictUpsert fs (path_join folder fname) c = fs :=
    dictUpsert_lookup_self fs (path_join folder fname) c hc
  simp only [download_url, Option.getD_some, Option.getD_none]
  rw [hc]
  simp [hs, hup, String.append_empty]

/-- Claim C10, witness: a concrete complete file under `resume=True` with no
checksum is left untouched and nothing is streamed. -/
theorem download_url_resume_noop_witness :
    download_url ⟨fun s => s, fun s => s⟩ ⟨5, "hello", none⟩ "http://x/f" "/d"
        (some "f") none "sha256" true [("/d/f", "hello")] =
      ⟨[("/d/f", "hello")], .ok (), ""⟩ :=
  download_url_resume_complete_noop ⟨fun s => s, fun s => s⟩ ⟨5, "hello", none⟩
    "http://x/f" "/d" "f" [("/d/f", "hello")] "hello" (by decide) (by decide)

/-! # Float-division lemmas for the timestamp model -/

theorem log2Fuel_bounds (f : Nat) : ∀ n : Nat, 1 ≤ n → n < 2 ^ f →
    2 ^ log2Fuel f n ≤ n ∧ n < 2 ^ (log2Fuel f n + 1) := by
  induction f with
  | zero =>
      intro n h1 h2
      rw [pow_zero] at h2
      omega
  | succ f ih =>
      intro n h1 h2
      by_cases hn : 2 ≤ n
      · have hhalf1 : 1 ≤ n / 2 := by omega
        have hhalf2 : n / 2 < 2 ^ f := by
          rw [pow_succ] at h2
          omega
        obtain ⟨l1, l2⟩ := ih (n / 2) hhalf1 hhalf2
        rw [show log2Fuel (f + 1) n = log2Fuel f (n / 2) + 1 from by
          simp [log2Fuel, hn]]
        refine ⟨?_, ?_⟩
        · rw [pow_succ]
          omega
        · rw [pow_succ]
          omega
      · rw [show log2Fuel (f + 1) n = 0 from by simp [log2Fuel, hn]]
        rw [pow_zero, pow_one]
        omega

theorem roundDiv_core (a b S q r : Nat) (hb : 0 < b) (ha : a < 2 ^ 53)
    (hinv : b * 2 ^ 52 ≤ a * 2 ^ S)
    (hq : q = a * 2 ^ S / b) (hr : r = a * 2 ^ S % b) :
    (if b < 2 * r then q + 1 else if 2 * r < b then q else q + q % 2) / 2 ^ S =
      a / b := by
  have hqS : q / 2 ^ S = a / b := by
    rw [hq, Nat.div_div_eq_div_mul,
      Nat.mul_div_mul_right a b (pow_pos (by norm_num) S)]
  have hrb : r < b := by
    rw [hr]
    exact Nat.mod_lt _ hb
  have hqr : b * q + r = a * 2 ^ S := by
    rw [hq, hr]
    exact Nat.div_add_mod _ b
  have key : b ≤ 2 * r → ¬ (2 ^ S ∣ q + 1) := by
    intro h2r hdvd
    obtain ⟨t, ht⟩ := hdvd
    have hmulsucc : b * (q + 1) = b * q + b := Nat.mul_succ b q
    have hbig : b * (q + 1) = a * 2 ^ S + (b - r) := by omega
    rw [ht] at hbig
    have hbt : a < b * t := by
      have h1 : a * 2 ^ S < b * (2 ^ S * t) := by omega
      have h2 : a * 2 ^ S < (b * t) * 2 ^ S := by
        calc a * 2 ^ S < b * (2 ^ S * t) := h1
          _ = (b * t) * 2 ^ S := by ring
      exact Nat.lt_of_mul_lt_mul_right h2
    have hscale : b * (2 ^ S * t) = (a + (b * t - a)) * 2 ^ S := by
      have h1 : a + (b * t - a) = b * t := by omega
      rw [h1]
      ring
    have hsub : b - r = (b * t - a) * 2 ^ S := by
      have h1 : (a + (b * t - a)) * 2 ^ S = a * 2 ^ S + (b * t - a) * 2 ^ S :=
        Nat.add_mul _ _ _
      omega
    have hge : 2 ^ S ≤ b - r := by
      have h1 : 1 ≤ b * t - a := by omega
      calc 2 ^ S = 1 * 2 ^ S := (one_mul _).symm
        _ ≤ (b * t - a) * 2 ^ S := Nat.mul_le_mul_right _ h1
        _ = b - r := hsub.symm
    have hS1 : 2 ^ S * 2 ≤ b := by omega
    have hcontra : 2 ^ 53 * 2 ^ S ≤ a * 2 ^ S := by
      calc 2 ^ 53 * 2 ^ S = (2 ^ S * 2) * 2 ^ 52 := by ring
        _ ≤ b * 2 ^ 52 := Nat.mul_le_mul_right _ hS1
        _ ≤ a * 2 ^ S := hinv
    have h53 : 2 ^ 53 ≤ a :=
      Nat.le_of_mul_le_mul_right hcontra (pow_pos (by norm_num) S)
    omega
  by_cases hgt : b < 2 * r
  · rw [if_pos hgt, Nat.succ_div, if_neg (key (by omega)), add_zero]
    exact hqS
  · rw [if_neg hgt]
    by_cases hlt : 2 * r < b
    · rw [if_pos hlt]
      exact hqS
    · rw [if_neg hlt]
      by_cases hpar : q % 2 = 0
      · rw [hpar, add_zero]
        exact hqS
      · have hpar1 : q % 2 = 1 := by omega
        rw [hpar1, Nat.succ_div, if_neg (key (by omega)), add_zero]
        exact hqS

theorem pyIntDivNat_floor (a b : Nat) (hb : 0 < b) (hb64 : b < 2 ^ 64)
    (ha : a < 2 ^ 53) : pyIntDivNat a b = a / b := by
  by_cases ha0 : a = 0
  · subst ha0
    simp [pyIntDivNat]
  simp only [pyIntDivNat]
  rw [if_neg ha0]
  set c := log2Fuel 2048 b + 1 with hcdef
  set k := log2Fuel 2048 (a * 2 ^ c / b) with hkdef
  have hcb := log2Fuel_bounds 2048 b hb (lt_trans hb64 (by norm_num))
  have hbc : b < 2 ^ c := by
    rw [hcdef]
    exact hcb.2
  have hc64 : c ≤ 64 := by
    have h1 : 2 ^ log2Fuel 2048 b ≤ b := hcb.1
    by_contra hgt
    push_neg at hgt
    have h2 : 2 ^ 64 ≤ 2 ^ log2Fuel 2048 b := by
      apply Nat.pow_le_pow_right (by norm_num)
      omega
    omega
  have harg1 : 1 ≤ a * 2 ^ c / b := by
    rw [Nat.le_div_iff_mul_le hb, one_mul]
    calc b ≤ 2 ^ c := le_of_lt hbc
      _ ≤ a * 2 ^ c := Nat.le_mul_of_pos_left _ (by omega)
  have harg2 : a * 2 ^ c / b < 2 ^ 2048 := by
    have h1 : a * 2 ^ c / b ≤ a * 2 ^ c := Nat.div_le_self _ _
    have h2 : a * 2 ^ c < 2 ^ 53 * 2 ^ 64 := by
      calc a * 2 ^ c < 2 ^ 53 * 2 ^ c :=
            mul_lt_mul_of_pos_right ha (pow_pos (by norm_num) c)
        _ ≤ 2 ^ 53 * 2 ^ 64 :=
            Nat.mul_le_mul_left _ (Nat.pow_le_pow_right (by norm_num) hc64)
    have h3 : (2 ^ 53 : Nat) * 2 ^ 64 < 2 ^ 2048 := by
      rw [← pow_add]
      exact Nat.pow_lt_pow_right (by norm_num) (by norm_num)
    omega
  have hk2 := log2Fuel_bounds 2048 (a * 2 ^ c / b) harg1 harg2
  have hlow : 2 ^ k * b ≤ a * 2 ^ c := by
    have h1 : 2 ^ k ≤ a * 2 ^ c / b := by
      rw [hkdef]
      exact hk2.1
    exact (Nat.le_div_iff_mul_le hb).mp h1
  have hks : k ≤ 52 + c := by
    by_contra hgt
    push_neg at hgt
    have h1 : 2 ^ (53 + c) ≤ 2 ^ k := Nat.pow_le_pow_right (by norm_num) (by omega)
    have h2 : 2 ^ (53 + c) * b ≤ a * 2 ^ c :=
      le_trans (Nat.mul_le_mul_right _ h1) hlow
    have h3 : (2 ^ 53) * 2 ^ c ≤ a * 2 ^ c := by
      calc (2 ^ 53 : Nat) * 2 ^ c = 2 ^ (53 + c) := (pow_add 2 53 c).symm
        _ ≤ 2 ^ (53 + c) * b := Nat.le_mul_of_pos_right _ hb
        _ ≤ a * 2 ^ c := h2
    have h4 : (2 ^ 53 : Nat) ≤ a :=
      Nat.le_of_mul_le_mul_right h3 (pow_pos (by norm_num) c)
    omega
  have hs0 : (0 : Int) ≤ 52 + (c : Int) - (k : Int) := by omega
  rw [if_pos hs0]
  have hSto : (52 + (c : Int) - (k : Int)).toNat = 52 + c - k := by omega
  have hnegto : (-(52 + (c : Int) - (k : Int))).toNat = 0 := by omega
  rw [hSto, hnegto]
  simp only [pow_zero, mul_one]
  have hkS : k + (52 + c - k) = 52 + c := by omega
  have hinv : b * 2 ^ 52 ≤ a * 2 ^ (52 + c - k) := by
    have h1 : (2 ^ k * b) * 2 ^ (52 + c - k) ≤ (a * 2 ^ c) * 2 ^ (52 + c - k) :=
      Nat.mul_le_mul_right _ hlow
    have h2 : (b * 2 ^ 52) * 2 ^ c ≤ (a * 2 ^ (52 + c - k)) * 2 ^ c := by
      calc (b * 2 ^ 52) * 2 ^ c = 2 ^ (52 + c) * b := by
            rw [pow_add 2 52 c]
            ring
        _ = 2 ^ (k + (52 + c - k)) * b := by rw [hkS]
        _ = (2 ^ k * b) * 2 ^ (52 + c - k) := by
            rw [pow_add 2 k (52 + c - k)]
            ring
        _ ≤ (a * 2 ^ c) * 2 ^ (52 + c - k) := h1
        _ = (a * 2 ^ (52 + c - k)) * 2 ^ c := by ring
    exact Nat.le_of_mul_le_mul_right h2 (pow_pos (by norm_num) c)
  exact roundDiv_core a b (52 + c - k) _ _ hb ha hinv rfl rfl

theorem pyIntDiv_ofNat (n b : Nat) :
    pyIntDiv (n : Int) b = (pyIntDivNat n b : Int) := by
  rw [pyIntDiv, if_pos (Int.natCast_nonneg n), Int.toNat_natCast]

theorem toString_int_ofNat (n : Nat) : toString (n : Int) = toString n := rfl

/-! # Claim C9 — timestamp format

The claim quantifies over every non-negative integer, but the source
computes each component with Python float division: once the quotient's
magnitude reaches the double's precision limit, `int(ms / 3600000)` can
round *up* past the floor and the running remainder goes negative.  At
`ms = 3600000 * 2 ^ 33 - 1` the program prints `8589934592:00:00.-01` — a
negative milliseconds field that breaks the claimed bounds, the zero-padded
shape and the reconstruction equation.  Below `2 ^ 53` milliseconds (about
285,000 years) every quotient in the chain truncates to the exact floor and
the claimed property holds. -/

/-- Claim C9, counterexample: at `ms = 3600000 * 2 ^ 33 - 1` the float
rounding in `int(ms / 3600000)` rounds the hours up to `2 ^ 33`, the
remainder becomes `-1`, and the output is `"8589934592:00:00.-01"`; no
components with the claimed bounds and sum can render that string (they
would be forced to `8589934591:59:59.999`). -/
theorem timestamp_float_rounding_counterexample :
    get_timestamp_from_milliseconds (3600000 * 2 ^ 33 - 1) =
        "8589934592:00:00.-01" ∧
      ¬ ∃ h m s r : Nat,
          get_timestamp_from_milliseconds (3600000 * 2 ^ 33 - 1) =
            zfill 2 (toString h) ++ ":" ++ zfill 2 (toString m) ++ ":" ++
              zfill 2 (toString s) ++ "." ++ zfill 3 (toString r) ∧
          m < 60 ∧ s < 60 ∧ r < 1000 ∧
          h * 3600000 + m * 60000 + s * 1000 + r = 3600000 * 2 ^ 33 - 1 := by
  have heval : get_timestamp_from_milliseconds (3600000 * 2 ^ 33 - 1) =
      "8589934592:00:00.-01" := by decide
  refine ⟨heval, ?_⟩
  rintro ⟨h, m, s, r, hshape, hm, hs, hr, hsum⟩
  have hval : (3600000 * 2 ^ 33 - 1 : Nat) = 30923764531199999 := by norm_num
  rw [hval] at hsum
  have hcomp : h = 8589934591 ∧ m = 59 ∧ s = 59 ∧ r = 999 := by omega
  obtain ⟨hh, hmm, hss, hrr⟩ := hcomp
  subst hh; subst hmm; subst hss; subst hrr
  rw [heval] at hshape
  exact absurd hshape (by decide)

/-- Claim C9 (amended): for every number of milliseconds below `2 ^ 53`
(where `int()` of the Python float quotients equals exact floor division),
the timestamp is the zero-padded `HH:MM:SS.mmm` rendering of components
with minutes and seconds below `60` and milliseconds below `1000` that add
back up to the input. -/
theorem timestamp_components_bounded (ms : Nat) (hms : ms < 2 ^ 53) :
    ∃ h m s r : Nat,
      get_timestamp_from_milliseconds ms =
        zfill 2 (toString h) ++ ":" ++ zfill 2 (toString m) ++ ":" ++
          zfill 2 (toString s) ++ "." ++ zfill 3 (toString r) ∧
      m < 60 ∧ s < 60 ∧ r < 1000 ∧
      h * 3600000 + m * 60000 + s * 1000 + r = ms := by
  have e1 : pyIntDiv (ms : Int) (60 * 60 * 1000) =
      ((ms / (60 * 60 * 1000) : Nat) : Int) := by
    rw [pyIntDiv_ofNat]
    exact congrArg _
      (pyIntDivNat_floor ms (60 * 60 * 1000) (by norm_num) (by norm_num) hms)
  have e2 : (ms : Int) - ((ms / (60 * 60 * 1000) : Nat) : Int) * (60 * 60 * 1000) =
      ((ms % (60 * 60 * 1000) : Nat) : Int) := by omega
  have hm1 : ms % (60 * 60 * 1000) < 2 ^ 53 :=
    lt_of_lt_of_le (Nat.mod_lt _ (by norm_num)) (by norm_num)
  have e3 : pyIntDiv ((ms % (60 * 60 * 1000) : Nat) : Int) (60 * 1000) =
      ((ms % (60 * 60 * 1000) / (60 * 1000) : Nat) : Int) := by
    rw [pyIntDiv_ofNat]
    exact congrArg _
      (pyIntDivNat_floor _ (60 * 1000) (by norm_num) (by norm_num) hm1)
  have e4 : ((ms % (60 * 60 * 1000) : Nat) : Int) -
      ((ms % (60 * 60 * 1000) / (60 * 1000) : Nat) : Int) * (60 * 1000) =
      ((ms % (60 * 60 * 1000) % (60 * 1000) : Nat) : Int) := by omega
  have hm2 : ms % (60 * 60 * 1000) % (60 * 1000) < 2 ^ 53 :=
    lt_of_lt_of_le (Nat.mod_lt _ (by norm_num)) (by norm_num)
  have e5 : pyIntDiv ((ms % (60 * 60 * 1000) % (60 * 1000) : Nat) : Int) 1000 =
      ((ms % (60 * 60 * 1000) % (60 * 1000) / 1000 : Nat) : Int) := by
    rw [pyIntDiv_ofNat]
    exact congrArg _ (pyIntDivNat_floor _ 1000 (by norm_num) (by norm_num) hm2)
  have e6 : ((ms % (60 * 60 * 1000) % (60 * 1000) : Nat) : Int) -
      ((ms % (60 * 60 * 1000) % (60 * 1000) / 1000 : Nat) : Int) * 1000 =
      ((ms % (60 * 60 * 1000) % (60 * 1000) % 1000 : Nat) : Int) := by omega
  refine ⟨ms / (60 * 60 * 1000), ms % (60 * 60 * 1000) / (60 * 1000),
    ms % (60 * 60 * 1000) % (60 * 1000) / 1000,
    ms % (60 * 60 * 1000) % (60 * 1000) % 1000,
    ?_, by omega, by omega, by omega, by omega⟩
  simp only [get_timestamp_from_milliseconds]
  rw [e1, e2, e3, e4, e5, e6]
  simp only [toString_int_ofNat]

/-- Claim C9, witness: the amended theorem applied at a concrete input
(one hour, two minutes, three seconds, four milliseconds). -/
theorem timestamp_components_bounded_witness :
    ∃ h m s r : Nat,
      get_timestamp_from_milliseconds 3723004 =
        zfill 2 (toString h) ++ ":" ++ zfill 2 (toString m) ++ ":" ++
          zfill 2 (toString s) ++ "." ++ zfill 3 (toString r) ∧
      m < 60 ∧ s < 60 ∧ r < 1000 ∧
      h * 3600000 + m * 60000 + s * 1000 + r = 3723004 :=
  timestamp_components_bounded 3723004 (by norm_num)
